import Mathlib

/-!
Verification of the micro-memoize cache engine against its specification.

The model shallowly embeds the two source files:
  - src/src/utils.js : the key matcher, key locator, LRU reordering loop,
    key transformation helper and the promise settlement handlers;
  - src/src/index.ts : the memoized driver (lookup, promotion, insertion,
    hook dispatch) and the construction guard.

JavaScript arrays become Lean lists; in-place mutation becomes explicit
state passing on `CacheState`; the `-1` "not found" sentinel is kept as an
`Int`; hook callbacks become an emitted event log carrying the cache value
each callback receives at call time.

The snapshot of the repository mixes two library versions: index.ts calls a
capacity-aware five-argument `orderByLru(cache, key, value, index, maxSize)`
and an options-aware `createGetKeyIndex(options)`, while utils.js holds an
older three-argument single-array `orderByLru` and a `createGetKeyIndex`
taking only `isEqual`, and does not define `isMemoized` or
`createUpdateAsyncCache` at all. Definitions for those missing callees are
modelled from the spec and are marked as such in their doc comments; every
other definition is translated from the source files.
-/

namespace MicroMemoize

/-- A JavaScript array element write `a[i] = v`. The sources only ever write
at an index that is at most the current length, so the single growth case
needed is `i = a.length`, which appends. -/
def writeAt (a : List α) (i : Nat) (v : α) : List α :=
  if i < a.length then a.set i v else a ++ [v]

/-- The shifting loop of `orderByLru` (src/src/utils.js lines 122-126):
`let index = startingIndex; while (index--) { array[index + 1] = array[index]; }`.
`orderShift a (i+1)` performs the write `a[i+1] = a[i]` first (the loop's
first iteration, at the highest index) and then continues downward. -/
def orderShift [Inhabited α] (a : List α) : Nat → List α
  | 0 => a
  | i + 1 => orderShift (writeAt a (i + 1) (a.getD i default)) i

/-- Function `orderByLru` from src/src/utils.js lines 121-129: shift the first
`startingIndex` entries one slot toward the tail, then write `value` at
index 0. -/
def orderByLru [Inhabited α] (array : List α) (value : α) (startingIndex : Nat) : List α :=
  writeAt (orderShift array startingIndex) 0 value

/-- Function `isSameValueZero` from src/src/utils.js lines 103-105. On Lean values the
`object1 !== object1` NaN clause is vacuous, so SameValueZero collapses to
decidable equality. -/
def isSameValueZero [DecidableEq α] (object1 object2 : α) : Bool :=
  object1 = object2

/-- The index loop of `areKeysEqual` (src/src/utils.js lines 41-47), walking
both key sequences in lock step. The branch pairing a non-empty list with an
empty one is unreachable behind the length guard of `areKeysEqual`. -/
def areKeysEqualGo (isEqual : α → α → Bool) : List α → List α → Bool
  | [], _ => true
  | _ :: _, [] => true
  | a :: as, b :: bs => if !(isEqual a b) then false else areKeysEqualGo isEqual as bs

/-- Function `areKeysEqual` from `createAreKeysEqual` (src/src/utils.js lines 36-48):
false on a length mismatch, otherwise the element-wise loop with `isEqual`. -/
def areKeysEqual (isEqual : α → α → Bool) (keys1 keys2 : List α) : Bool :=
  if keys1.length ≠ keys2.length then false
  else areKeysEqualGo isEqual keys1 keys2

/-- The scanning loop of `getKeyIndex` (src/src/utils.js lines 65-73),
abstracted over the per-stored-key match test: return the current index on
the first hit, `-1` past the end. -/
def getKeyIndexGo (isMatch : κ → Bool) : List κ → Nat → Int
  | [], _ => -1
  | k :: rest, index => if isMatch k then (index : Int) else getKeyIndexGo isMatch rest (index + 1)

/-- Function `getKeyIndex` from `createGetKeyIndex` (src/src/utils.js lines 51-74):
linear scan of `allKeys` with `areKeysEqual isEqual`, comparing each stored
key against `keysToMatch`. -/
def getKeyIndex (isEqual : α → α → Bool) (allKeys : List (List α)) (keysToMatch : List α) : Int :=
  getKeyIndexGo (fun stored => areKeysEqual isEqual stored keysToMatch) allKeys 0

/-- A JavaScript value in key position: either an array of elements or a
non-array (scalar) value, which is what a key transform may return. -/
inductive JSKey (α : Type) where
  | arr (elems : List α)
  | scalar (v : α)
deriving DecidableEq, Repr

instance [Inhabited α] : Inhabited (JSKey α) := ⟨JSKey.scalar default⟩

/-- Function `getTransformedKey` from `createGetTransformedKey` (src/src/utils.js
lines 76-91): apply the transform and wrap a non-array result into a
single-element array (`Array.isArray(key) ? key : [key]`). -/
def getTransformedKey (transformKey : List α → JSKey α) (args : List α) : List α :=
  match transformKey args with
  | JSKey.arr key => key
  | JSKey.scalar key => [key]

/-- The cache store of src/src/index.ts lines 58-67: the two parallel
sequences; `size` is derived as `keys.length`. -/
structure CacheState (κ β : Type) where
  keys : List κ
  values : List β
deriving DecidableEq, Repr

/-- A recorded invocation of one of the three lifecycle callbacks, carrying
the cache value the callback receives at the moment it is called. -/
inductive HookCall (κ β : Type) where
  | add (cache : CacheState κ β)
  | hit (cache : CacheState κ β)
  | change (cache : CacheState κ β)
deriving DecidableEq, Repr

/-- Function `onCacheOperation` from src/src/utils.js line 108: the no-op default
hook. -/
def onCacheOperation (_cacheIgnored : CacheState κ β) (_optionsIgnored : σ) : Unit := ()

/-- JavaScript `array.splice(i, 1)`: remove the single element at index `i`. -/
def spliceOne (l : List α) (i : Nat) : List α :=
  l.take i ++ l.drop (i + 1)

/-- The fulfillment continuation installed by `setPromiseHandler`
(src/src/utils.js lines 144-150): call `onCacheHit` then `onCacheChange`
with the cache as it stands when the promise settles, and return the
resolved value unchanged. -/
def setPromiseHandlerOnFulfilled (cache : CacheState κ β) (value : γ) :
    List (HookCall κ β) × γ :=
  ([HookCall.hit cache, HookCall.change cache], value)

/-- The rejection continuation installed by `setPromiseHandler`
(src/src/utils.js lines 151-160): re-locate the key captured at attach time
(`cache.keys[0]` then), and if still present (`if (~keyIndex)`) splice the
pair out of both sequences; the original error is re-thrown either way. -/
def setPromiseHandlerOnRejected (getKeyIndexFn : List κ → κ → Int)
    (cache : CacheState κ β) (key : κ) (error : ε) : CacheState κ β × ε :=
  let keyIndex : Int := getKeyIndexFn cache.keys key
  if keyIndex ≠ -1 then
    (⟨spliceOne cache.keys keyIndex.toNat, spliceOne cache.values keyIndex.toNat⟩, error)
  else
    (cache, error)

/-- Modelled from the spec: §4.4 `promote(store, key, value, sourceIndex,
maxSize)`, the capacity-aware LRU reorderer that src/src/index.ts calls as
`orderByLru(cache, key, value, index, maxSize)` (lines 89 and 98). The
five-argument form is absent from src/src/utils.js, which holds the older
single-array variant; the shift-and-place logic below reuses that source
`orderByLru` on each parallel sequence, and per §4.4 "After insertion, if
store.size > maxSize, evict entries from the tail until store.size ===
maxSize. Eviction removes both the key and value at the truncated
positions." -/
def promote [Inhabited κ] [Inhabited β] (c : CacheState κ β) (key : κ) (value : β)
    (sourceIndex maxSize : Nat) : CacheState κ β :=
  let keys := orderByLru c.keys key sourceIndex
  let values := orderByLru c.values value sourceIndex
  if maxSize < keys.length then
    ⟨keys.take maxSize, values.take maxSize⟩
  else
    ⟨keys, values⟩

/-- What the `memoized` closure of src/src/index.ts closes over: the wrapped
function, the key derivation of line 82 (`canTransformKey ?
transformKey(normalizedArgs) : normalizedArgs`, folded into one function so
the key type `κ` may differ from the argument list type), the `getKeyIndex`
built from the options at line 55, `maxSize`, and the three
`shouldUpdateOn…` hook-presence flags of lines 73-75. -/
structure MemoConfig (α κ β : Type) where
  fn : List α → β
  transformKey : List α → κ
  locate : List κ → κ → Int
  maxSize : Nat
  onAdd : Bool
  onHit : Bool
  onChange : Bool

/-- The outcome of one call to the memoized closure: the cache afterwards,
the hook invocations in order, how many times the wrapped function ran, and
the returned `values[0]`. -/
structure StepOut (κ β : Type) where
  cache : CacheState κ β
  events : List (HookCall κ β)
  fnCalls : Nat
  result : Option β
deriving Repr

/-- One call of the `memoized` closure, src/src/index.ts lines 78-107:
derive the key, locate it (`keys.length ? getKeyIndex(keys, key) : -1`,
line 83); on a hit fire `onCacheHit` (with the cache as it stands before
any reorder), and if the match is not already at the front (`if
(keyIndex)`, line 88) promote it and fire `onCacheChange`; on a miss invoke
the wrapped function, insert via the capacity-aware reorder at
`startingIndex = keys.length`, and fire `onCacheAdd` then `onCacheChange`;
finally return `values[0]`. The synchronous bookkeeping of the async branch
(line 100) does not alter `keys`/`values`, and its settlement-time behavior
is modelled by the `setPromiseHandler` continuations above. -/
def memoizedStep [Inhabited κ] [Inhabited β] (cfg : MemoConfig α κ β)
    (c : CacheState κ β) (args : List α) : StepOut κ β :=
  let key := cfg.transformKey args
  let keyIndex : Int := if c.keys.length ≠ 0 then cfg.locate c.keys key else -1
  if keyIndex ≠ -1 then
    let hitEvents := if cfg.onHit then [HookCall.hit c] else []
    if keyIndex ≠ 0 then
      let i := keyIndex.toNat
      let c' := promote c (c.keys.getD i default) (c.values.getD i default) i cfg.maxSize
      ⟨c', hitEvents ++ (if cfg.onChange then [HookCall.change c'] else []), 0, c'.values.head?⟩
    else
      ⟨c, hitEvents, 0, c.values.head?⟩
  else
    let newValue := cfg.fn args
    let c' := promote c key newValue c.keys.length cfg.maxSize
    ⟨c', (if cfg.onAdd then [HookCall.add c'] else []) ++
        (if cfg.onChange then [HookCall.change c'] else []), 1, c'.values.head?⟩

/-- A sequence of calls to the memoized closure, threaded through the cache
from a given starting state. -/
def memoizedRunFrom [Inhabited κ] [Inhabited β] (cfg : MemoConfig α κ β)
    (c : CacheState κ β) (calls : List (List α)) : CacheState κ β :=
  calls.foldl (fun s args => (memoizedStep cfg s args).cache) c

/-- A sequence of calls starting from the freshly constructed empty cache
(src/src/index.ts lines 58-59). -/
def memoizedRun [Inhabited κ] [Inhabited β] (cfg : MemoConfig α κ β)
    (calls : List (List α)) : CacheState κ β :=
  memoizedRunFrom cfg ⟨[], []⟩ calls

/-- Modelled from the spec: §4.2 Key Matcher and §4.3 Key Locator in their
options-aware form. src/src/index.ts line 55 builds its locator as
`createGetKeyIndex(normalizedOptions)` (where the options carry `isEqual`
and the optional `isMatchingKey`), but src/src/utils.js holds only the
older `createGetKeyIndex(isEqual)` with no whole-key mode. Per §4.2,
whole-key mode "delegates directly to a user-supplied predicate
`isMatchingKey(keyA, keyB)` that receives the two full key sequences; used
instead of the element-wise algorithm when configured"; element-wise mode
is the source `getKeyIndex` embedded above. -/
def getKeyIndexWithOptions (isEqual : α → α → Bool)
    (isMatchingKey : Option (List α → List α → Bool))
    (allKeys : List (List α)) (keyToMatch : List α) : Int :=
  match isMatchingKey with
  | some isMatching => getKeyIndexGo (fun stored => isMatching stored keyToMatch) allKeys 0
  | none => getKeyIndex isEqual allKeys keyToMatch

/-- The user-facing options record of src/src/index.ts lines 33-42, each
field optional; the two hook-shaped pieces the model tracks are presence
flags, and the key transform keeps the argument-list key type. -/
structure StandardOptions (α : Type) where
  isEqual : Option (α → α → Bool) := none
  isMatchingKey : Option (List α → List α → Bool) := none
  isPromise : Option Bool := none
  maxSize : Option Nat := none
  onCacheAdd : Bool := false
  onCacheChange : Bool := false
  onCacheHit : Bool := false
  transformKey : Option (List α → List α) := none

/-- The normalized options record built at src/src/index.ts lines 44-53
after the destructuring defaults of lines 33-42 are applied. -/
structure NormalizedOptions (α : Type) where
  isEqual : α → α → Bool
  isMatchingKey : Option (List α → List α → Bool)
  isPromise : Bool
  maxSize : Nat
  onCacheAdd : Bool
  onCacheChange : Bool
  onCacheHit : Bool
  transformKey : Option (List α → List α)

/-- The destructuring defaults of src/src/index.ts lines 33-42: `isEqual`
defaults to `isSameValueZero`, `isPromise` to `false`, `maxSize` to `1`. -/
def normalizeOptions [DecidableEq α] (options : StandardOptions α) : NormalizedOptions α :=
  { isEqual := options.isEqual.getD isSameValueZero
    isMatchingKey := options.isMatchingKey
    isPromise := options.isPromise.getD false
    maxSize := options.maxSize.getD 1
    onCacheAdd := options.onCacheAdd
    onCacheChange := options.onCacheChange
    onCacheHit := options.onCacheHit
    transformKey := options.transformKey }

/-- A memoized callable as produced by `createMemoizedFunction`
(src/src/index.ts lines 109-134): the wrapped function together with its
own cache and its resolved options. -/
structure Memoized (α β : Type) where
  fn : List α → β
  cache : CacheState (List α) β
  options : NormalizedOptions α

/-- A value passed to `createMemoizedFunction`: a plain function, a
callable that is already memoized, or something that is not a function at
all. -/
inductive FnArg (α β : Type) where
  | plain (fn : List α → β)
  | memo (m : Memoized α β)
  | notCallable

/-- Modelled from the spec: the "is this already a memoized callable"
detection (§1 lists it as an interface-boundary collaborator). It is
imported by src/src/index.ts from ./utils and used at lines 25-27 and as
the `isMemoized: true` marker property of lines 124-127, but it is absent
from src/src/utils.js: it recognizes exactly the values carrying the
marker, i.e. previously constructed memoized callables. -/
def isMemoized : FnArg α β → Bool
  | FnArg.memo _ => true
  | _ => false

/-- Function `createMemoizedFunction` from src/src/index.ts lines 21-135: return an
already-memoized input unchanged (lines 25-27), reject a non-function
(lines 29-31), and otherwise build a fresh memoized callable with an empty
cache (lines 58-59) and the normalized options. -/
def createMemoizedFunction [DecidableEq α] (fn : FnArg α β) (options : StandardOptions α) :
    Except String (Memoized α β) :=
  match fn with
  | FnArg.memo m => Except.ok m
  | FnArg.notCallable => Except.error ("You must pass a function to `memoize`.")
  | FnArg.plain f => Except.ok ⟨f, ⟨[], []⟩, normalizeOptions options⟩

/-- A concrete configuration used by sanity checks and witnesses: summing
function, identity key derivation, element-wise locator over SameValueZero,
capacity two, all three hooks configured. -/
def cfgSum : MemoConfig Nat (List Nat) Nat :=
  { fn := fun args => args.foldl (fun a b => a + b) 0
    transformKey := fun args => args
    locate := fun ks k => getKeyIndex isSameValueZero ks k
    maxSize := 2
    onAdd := true
    onHit := true
    onChange := true }

/- Sanity check: the §8 scenario with maxSize 2 and keys A=[1], B=[2],
C=[3]: after A,B the store is [B,A]; the second A is a promoting hit giving
[A,B]; C inserts and evicts B, giving [C,A]. -/
example :
    memoizedRun cfgSum [[1], [2], [1], [3]] = ⟨[[3], [1]], [3, 1]⟩ := by decide

/- Sanity check: zero-argument calls share one slot — the second call is a
front hit that adds nothing and fires hit only. -/
example :
    (memoizedStep cfgSum (memoizedStep cfgSum ⟨[], []⟩ []).cache []).events
      = [HookCall.hit ⟨[[]], [0]⟩] := by decide

/-! ### Characterization of the LRU shift loop -/

/-- The `orderByLru` loop moves `value` to the front: positions `[0,
startingIndex)` shift one slot toward the tail, the element previously at
`startingIndex` is dropped (at `startingIndex = array.length` nothing is
dropped and the list grows by one), and everything past `startingIndex`
keeps its place. -/
theorem orderByLru_eq [Inhabited α] (a : List α) (v : α) (i : Nat) (h : i ≤ a.length) :
    orderByLru a v i = v :: (a.take i ++ a.drop (i + 1)) := by
  induction i generalizing a with
  | zero =>
    cases a with
    | nil => simp [orderByLru, orderShift, writeAt]
    | cons x xs => simp [orderByLru, orderShift, writeAt]
  | succ i ih =>
    have hi : i < a.length := Nat.lt_of_lt_of_le (Nat.lt_succ_self i) h
    have hgd : a.getD i default = a[i] := List.getD_eq_getElem a default hi
    have htks : a.take (i + 1) = a.take i ++ [a[i]] := by
      rw [List.take_succ, List.getElem?_eq_getElem hi]
      rfl
    have htake : (a.take i).length = i := by
      simp only [List.length_take]
      omega
    have hb : writeAt a (i + 1) (a.getD i default)
        = a.take i ++ a[i] :: a[i] :: a.drop (i + 2) := by
      rcases Nat.lt_or_ge (i + 1) a.length with hlt | hge
      · have hset : a.set (i + 1) (a.getD i default)
            = a.take (i + 1) ++ (a.getD i default) :: a.drop (i + 2) :=
          List.set_eq_take_cons_drop _ hlt
        simp only [writeAt, if_pos hlt]
        rw [hset, htks, hgd, List.append_assoc, List.singleton_append]
      · have hlen : i + 1 = a.length := Nat.le_antisymm h hge
        have h2 : a.drop (i + 2) = [] := List.drop_eq_nil_of_le (by omega)
        have h3 : a.take (i + 1) = a := List.take_of_length_le (by omega)
        simp only [writeAt, if_neg (by omega : ¬ i + 1 < a.length)]
        rw [hgd, h2]
        calc a ++ [a[i]] = (a.take i ++ [a[i]]) ++ [a[i]] := by rw [← htks, h3]
          _ = a.take i ++ a[i] :: a[i] :: [] := by
            rw [List.append_assoc, List.singleton_append]
    have hblen : i ≤ (writeAt a (i + 1) (a.getD i default)).length := by
      rw [hb]
      simp only [List.length_append, List.length_cons, htake]
      omega
    have hstep : orderByLru a v (i + 1)
        = orderByLru (writeAt a (i + 1) (a.getD i default)) v i := rfl
    rw [hstep, ih _ hblen, hb, List.take_left' htake]
    have hdrop : (a.take i ++ a[i] :: a[i] :: a.drop (i + 2)).drop (i + 1)
        = a[i] :: a.drop (i + 2) := by
      have h5 : i + 1 = (a.take i).length + 1 := by omega
      rw [h5, List.drop_append]
      rfl
    rw [hdrop, htks, List.append_assoc, List.singleton_append]

/-- Length of the shift loop's output on an in-range starting index. -/
theorem orderByLru_length_lt [Inhabited α] (a : List α) (v : α) (i : Nat) (h : i < a.length) :
    (orderByLru a v i).length = a.length := by
  rw [orderByLru_eq a v i (Nat.le_of_lt h)]
  simp only [List.length_cons, List.length_append, List.length_take, List.length_drop]
  omega

/-- Length of the shift loop's output at the growing starting index. -/
theorem orderByLru_length_self [Inhabited α] (a : List α) (v : α) :
    (orderByLru a v a.length).length = a.length + 1 := by
  rw [orderByLru_eq a v a.length (Nat.le_refl _)]
  simp only [List.length_cons, List.length_append, List.length_take, List.length_drop]
  omega

/-- Inserting at `startingIndex = keys.length` prepends the new pair and
truncates both sequences to `maxSize` (a no-op when within capacity). -/
theorem promote_insert_eq [Inhabited κ] [Inhabited β] (c : CacheState κ β) (k : κ) (v : β)
    (m : Nat) (hsync : c.values.length = c.keys.length) :
    promote c k v c.keys.length m = ⟨(k :: c.keys).take m, (v :: c.values).take m⟩ := by
  have hkeys : orderByLru c.keys k c.keys.length = k :: c.keys := by
    rw [orderByLru_eq c.keys k c.keys.length (Nat.le_refl _)]
    simp
  have hvals : orderByLru c.values v c.keys.length = v :: c.values := by
    rw [← hsync, orderByLru_eq c.values v c.values.length (Nat.le_refl _)]
    simp
  unfold promote
  rw [hkeys, hvals]
  by_cases hm : m < (k :: c.keys).length
  · simp only [if_pos hm]
  · simp only [if_neg hm]
    have h1 : (k :: c.keys).take m = k :: c.keys :=
      List.take_of_length_le (by omega)
    have h2 : (v :: c.values).take m = v :: c.values := by
      apply List.take_of_length_le
      simp only [List.length_cons] at hm ⊢
      omega
    rw [h1, h2]

/-- The store after `promote` never exceeds `maxSize`, whatever the
starting index. -/
theorem promote_keys_length_le [Inhabited κ] [Inhabited β] (c : CacheState κ β) (k : κ)
    (v : β) (i m : Nat) : (promote c k v i m).keys.length ≤ m := by
  unfold promote
  by_cases hm : m < (orderByLru c.keys k i).length
  · simp only [if_pos hm, List.length_take]
    omega
  · simp only [if_neg hm]
    omega

/-! ### Characterization of the key locator scan -/

/-- A scan whose head already matches returns the starting index. -/
theorem getKeyIndexGo_head (isMatch : κ → Bool) (x : κ) (l : List κ) (s : Nat)
    (hx : isMatch x = true) : getKeyIndexGo isMatch (x :: l) s = (s : Int) := by
  simp [getKeyIndexGo, hx]

/-- A scan over keys none of which match reports the `-1` sentinel. -/
theorem getKeyIndexGo_neg (isMatch : κ → Bool) (l : List κ) (s : Nat)
    (h : ∀ x ∈ l, isMatch x = false) : getKeyIndexGo isMatch l s = -1 := by
  induction l generalizing s with
  | nil => rfl
  | cons x rest ih =>
    have hx := h x (List.mem_cons_self x rest)
    simp [getKeyIndexGo, hx, ih (s + 1) (fun y hy => h y (List.mem_cons_of_mem _ hy))]

/-- Full characterization of the locator loop: either nothing matches and
the result is `-1`, or the result is the offset of the first matching
stored key. -/
theorem getKeyIndexGo_spec [Inhabited κ] (isMatch : κ → Bool) (l : List κ) (s : Nat) :
    (getKeyIndexGo isMatch l s = -1 ∧ ∀ x ∈ l, isMatch x = false)
    ∨ (∃ i, i < l.length ∧ getKeyIndexGo isMatch l s = ((s + i : Nat) : Int)
        ∧ isMatch (l.getD i default) = true
        ∧ ∀ j, j < i → isMatch (l.getD j default) = false) := by
  induction l generalizing s with
  | nil => exact Or.inl ⟨rfl, by simp⟩
  | cons x rest ih =>
    by_cases hx : isMatch x = true
    · refine Or.inr ⟨0, by simp, ?_, by simpa using hx, fun j hj => absurd hj (by omega)⟩
      simp [getKeyIndexGo, hx]
    · have hx' : isMatch x = false := by simpa using hx
      have hcons : getKeyIndexGo isMatch (x :: rest) s = getKeyIndexGo isMatch rest (s + 1) := by
        simp [getKeyIndexGo, hx']
      rcases ih (s + 1) with ⟨hgo, hall⟩ | ⟨i, hilen, hgo, hm, hprev⟩
      · refine Or.inl ⟨by rw [hcons, hgo], ?_⟩
        intro y hy
        rcases List.mem_cons.mp hy with rfl | hy
        · exact hx'
        · exact hall y hy
      · refine Or.inr ⟨i + 1, by simpa using Nat.succ_lt_succ hilen, ?_, ?_, ?_⟩
        · rw [hcons, hgo]
          have harith : s + 1 + i = s + (i + 1) := by omega
          rw [harith]
        · simpa [List.getD_cons_succ] using hm
        · intro j hj
          cases j with
          | zero => simpa [List.getD_cons_zero] using hx'
          | succ j => simpa [List.getD_cons_succ] using hprev j (by omega)

/-- The head of a truncated non-empty store is the freshly prepended
element whenever the capacity is at least one. -/
theorem take_cons_head (k : κ) (l : List κ) (m : Nat) (hm : 1 ≤ m) :
    ((k :: l).take m).head? = some k := by
  cases m with
  | zero => omega
  | succ m' => simp

/-- Every element surviving a single-element splice sits at a position of
the original list other than the spliced one. -/
theorem mem_spliceOne [Inhabited κ] (l : List κ) (i : Nat) (x : κ) (hx : x ∈ spliceOne l i) :
    ∃ j, j < l.length ∧ j ≠ i ∧ l.getD j default = x := by
  rcases List.mem_append.mp hx with h | h
  · obtain ⟨j, hj, hget⟩ := List.mem_iff_getElem.mp h
    have hj' : j < i ∧ j < l.length := by
      have := hj
      simp only [List.length_take] at this
      omega
    refine ⟨j, hj'.2, by omega, ?_⟩
    rw [List.getD_eq_getElem l default hj'.2, ← List.getElem_take l, hget]
  · obtain ⟨j, hj, hget⟩ := List.mem_iff_getElem.mp h
    have hj' : i + 1 + j < l.length := by
      have := hj
      simp only [List.length_drop] at this
      omega
    refine ⟨i + 1 + j, hj', by omega, ?_⟩
    rw [List.getD_eq_getElem l default hj', ← hget, List.getElem_drop l]

/-- The promotion step for a matched in-range entry under capacity: the
prefix before the match shifts one slot toward the tail, the matched pair
moves to index 0, and entries past the match keep their positions. -/
theorem promote_hit_eq [Inhabited κ] [Inhabited β] (c : CacheState κ β) (i m : Nat)
    (hik : i < c.keys.length) (hiv : i < c.values.length) (hcap : c.keys.length ≤ m) :
    promote c (c.keys.getD i default) (c.values.getD i default) i m
      = ⟨c.keys.getD i default :: (c.keys.take i ++ c.keys.drop (i + 1)),
         c.values.getD i default :: (c.values.take i ++ c.values.drop (i + 1))⟩ := by
  unfold promote
  rw [orderByLru_eq _ _ _ (Nat.le_of_lt hik), orderByLru_eq _ _ _ (Nat.le_of_lt hiv)]
  have hne : ¬ m < (c.keys.getD i default
      :: (c.keys.take i ++ c.keys.drop (i + 1))).length := by
    simp only [List.length_cons, List.length_append, List.length_take, List.length_drop]
    omega
  simp only [if_neg hne]

/-- One call of the memoized closure keeps the store within capacity. -/
theorem memoizedStep_size_le [Inhabited κ] [Inhabited β] (cfg : MemoConfig α κ β)
    (c : CacheState κ β) (args : List α) (h : c.keys.length ≤ cfg.maxSize) :
    (memoizedStep cfg c args).cache.keys.length ≤ cfg.maxSize := by
  by_cases h0 : c.keys.length ≠ 0
  · by_cases h1 : cfg.locate c.keys (cfg.transformKey args) ≠ -1
    · by_cases h2 : cfg.locate c.keys (cfg.transformKey args) ≠ 0
      · simp only [memoizedStep, if_pos h0, if_pos h1, if_pos h2]
        exact promote_keys_length_le c _ _ _ _
      · simp only [memoizedStep, if_pos h0, if_pos h1, if_neg h2]
        exact h
    · simp only [memoizedStep, if_pos h0, if_neg h1]
      exact promote_keys_length_le c _ _ _ _
  · have hmiss : ((if c.keys.length ≠ 0 then cfg.locate c.keys (cfg.transformKey args)
        else -1) : Int) = -1 := by rw [if_neg h0]
    simp only [memoizedStep, hmiss]
    rw [if_neg (by omega : ¬((-1 : Int) ≠ -1))]
    exact promote_keys_length_le c _ _ _ _

/-- Any sequence of calls keeps the store within capacity. -/
theorem memoizedRunFrom_size_le [Inhabited κ] [Inhabited β] (cfg : MemoConfig α κ β)
    (c : CacheState κ β) (calls : List (List α)) (h : c.keys.length ≤ cfg.maxSize) :
    (memoizedRunFrom cfg c calls).keys.length ≤ cfg.maxSize := by
  induction calls generalizing c with
  | nil => exact h
  | cons a rest ih => exact ih _ (memoizedStep_size_le cfg c a h)

/-! ### The claims -/

/-- Claim C1: for every maxSize ≥ 1 the store's size never exceeds maxSize
over any sequence of calls to the memoized callable, and whenever an
insertion would make the store larger than maxSize, both the keys and the
values are truncated at the tail back to exactly maxSize entries. -/
theorem cache_size_bounded [Inhabited κ] [Inhabited β] (cfg : MemoConfig α κ β)
    (calls : List (List α)) (_hmax : 1 ≤ cfg.maxSize) :
    (memoizedRun cfg calls).keys.length ≤ cfg.maxSize
    ∧ ∀ (c : CacheState κ β) (k : κ) (v : β),
        c.values.length = c.keys.length → cfg.maxSize < c.keys.length + 1 →
        (promote c k v c.keys.length cfg.maxSize).keys = (k :: c.keys).take cfg.maxSize
        ∧ (promote c k v c.keys.length cfg.maxSize).values = (v :: c.values).take cfg.maxSize
        ∧ (promote c k v c.keys.length cfg.maxSize).keys.length = cfg.maxSize := by
  constructor
  · exact memoizedRunFrom_size_le cfg ⟨[], []⟩ calls (Nat.zero_le _)
  · intro c k v hsync hover
    have hins := promote_insert_eq c k v cfg.maxSize hsync
    refine ⟨by rw [hins], by rw [hins], ?_⟩
    rw [hins]
    simp only [List.length_take, List.length_cons]
    omega

/-- Claim C1 witness: a concrete run of three distinct insertions at
capacity two stays within capacity, and a concrete over-capacity insertion
truncates the tail. -/
theorem cache_size_bounded_witness :
    (memoizedRun cfgSum [[1], [2], [3]]).keys.length ≤ cfgSum.maxSize
    ∧ ∀ (c : CacheState (List Nat) Nat) (k : List Nat) (v : Nat),
        c.values.length = c.keys.length → cfgSum.maxSize < c.keys.length + 1 →
        (promote c k v c.keys.length cfgSum.maxSize).keys = (k :: c.keys).take cfgSum.maxSize
        ∧ (promote c k v c.keys.length cfgSum.maxSize).values
            = (v :: c.values).take cfgSum.maxSize
        ∧ (promote c k v c.keys.length cfgSum.maxSize).keys.length = cfgSum.maxSize :=
  cache_size_bounded cfgSum [[1], [2], [3]] (by decide)

/-- Claim C5: when a cached pending value resolves successfully, the
attached continuation fires the hit hook and then the change hook with the
cache's state at resolution time — whatever interim calls have done to the
store since the value was inserted — and passes the resolved value through
unchanged. -/
theorem promise_fulfillment_hooks [Inhabited κ] [Inhabited β] (cfg : MemoConfig α κ β)
    (c0 : CacheState κ β) (interim : List (List α)) (v : γ) :
    setPromiseHandlerOnFulfilled (memoizedRunFrom cfg c0 interim) v
      = ([HookCall.hit (memoizedRunFrom cfg c0 interim),
          HookCall.change (memoizedRunFrom cfg c0 interim)], v) := rfl

/-- Claim C10: applying the construction function to an already-memoized
callable returns that same callable unchanged — same function, same cache,
same options — rather than building a new wrapper. -/
theorem createMemoizedFunction_idempotent [DecidableEq α] (m : Memoized α β)
    (options : StandardOptions α) :
    createMemoizedFunction (FnArg.memo m) options = Except.ok m := rfl

/-- The element-wise loop agrees with index-wise equality on equal-length
key sequences. -/
theorem areKeysEqualGo_iff [Inhabited α] (isEqual : α → α → Bool) (k1 : List α) :
    ∀ (k2 : List α), k1.length = k2.length →
      (areKeysEqualGo isEqual k1 k2 = true ↔
        ∀ i, i < k1.length → isEqual (k1.getD i default) (k2.getD i default) = true) := by
  induction k1 with
  | nil =>
    intro k2 _
    simp [areKeysEqualGo]
  | cons a as ih =>
    intro k2 h
    cases k2 with
    | nil => simp at h
    | cons b bs =>
      have h' : as.length = bs.length := by simpa using h
      by_cases hab : isEqual a b = true
      · have hgo : areKeysEqualGo isEqual (a :: as) (b :: bs)
            = areKeysEqualGo isEqual as bs := by
          simp [areKeysEqualGo, hab]
        rw [hgo, ih bs h']
        constructor
        · intro hall i hi
          cases i with
          | zero => simpa using hab
          | succ i =>
            simpa [List.getD_cons_succ] using hall i (by simpa using hi)
        · intro hall i hi
          simpa [List.getD_cons_succ] using hall (i + 1) (by simpa using Nat.succ_lt_succ hi)
      · have hgo : areKeysEqualGo isEqual (a :: as) (b :: bs) = false := by
          simp [areKeysEqualGo, hab]
        rw [hgo]
        constructor
        · intro hfalse
          exact absurd hfalse (by simp)
        · intro hall
          have h0 := hall 0 (by simp)
          rw [List.getD_cons_zero, List.getD_cons_zero] at h0
          exact absurd h0 hab

/-- Claim C6: the default element-wise key matcher reports a match exactly
when the two key sequences have equal length and the equality strategy
holds at every index pair; in particular two empty key sequences always
match. -/
theorem element_wise_matcher_iff [Inhabited α] (isEqual : α → α → Bool)
    (keys1 keys2 : List α) :
    (areKeysEqual isEqual keys1 keys2 = true ↔
      keys1.length = keys2.length ∧
        ∀ i, i < keys1.length →
          isEqual (keys1.getD i default) (keys2.getD i default) = true)
    ∧ areKeysEqual isEqual ([] : List α) [] = true := by
  refine ⟨?_, rfl⟩
  by_cases h : keys1.length = keys2.length
  · rw [areKeysEqual, if_neg (not_not_intro h), areKeysEqualGo_iff isEqual keys1 keys2 h]
    exact ⟨fun hx => ⟨h, hx⟩, fun hx => hx.2⟩
  · rw [areKeysEqual, if_pos h]
    simp [h]

/-- Claim C7: when an `isMatchingKey` predicate is configured, the key
locator's match decision at every stored key is exactly that predicate
applied to the two full key sequences — the element-wise equality strategy
plays no part (the result is independent of it), and the returned index is
the first one the predicate accepts. -/
theorem isMatchingKey_delegates [Inhabited α] :
    (∀ (isEqual1 isEqual2 : α → α → Bool) (p : List α → List α → Bool)
        (allKeys : List (List α)) (key : List α),
      getKeyIndexWithOptions isEqual1 (some p) allKeys key
        = getKeyIndexWithOptions isEqual2 (some p) allKeys key)
    ∧ (∀ (isEqual : α → α → Bool) (p : List α → List α → Bool)
        (allKeys : List (List α)) (key : List α),
      (getKeyIndexWithOptions isEqual (some p) allKeys key = -1
          ∧ ∀ stored ∈ allKeys, p stored key = false)
      ∨ (∃ i, i < allKeys.length
          ∧ getKeyIndexWithOptions isEqual (some p) allKeys key = (i : Int)
          ∧ p (allKeys.getD i default) key = true
          ∧ ∀ j, j < i → p (allKeys.getD j default) key = false)) := by
  constructor
  · intro isEqual1 isEqual2 p allKeys key
    rfl
  · intro isEqual p allKeys key
    have hspec := getKeyIndexGo_spec (fun stored => p stored key) allKeys 0
    simpa [getKeyIndexWithOptions] using hspec

/-- The head of a non-empty list is its entry at index 0. -/
theorem head?_eq_getD_zero [Inhabited κ] (l : List κ) (h : l.length ≠ 0) :
    l.head? = some (l.getD 0 default) := by
  cases l with
  | nil => simp at h
  | cons x xs => simp

/-- Claim C3: promoting a matched entry at `0 < sourceIndex < store.size`
shifts exactly the entries at positions `[0, sourceIndex)` one slot toward
the tail and places the matched key/value pair at index 0, leaving every
entry past `sourceIndex` at its position; and after any call of the
memoized closure — successful lookup or insertion — the matched or
inserted key sits at index 0. -/
theorem lru_promotion_moves_to_front [Inhabited κ] [Inhabited β] :
    (∀ (c : CacheState κ β) (i m : Nat), 0 < i → i < c.keys.length →
        i < c.values.length → c.keys.length ≤ m →
        promote c (c.keys.getD i default) (c.values.getD i default) i m
          = ⟨c.keys.getD i default :: (c.keys.take i ++ c.keys.drop (i + 1)),
             c.values.getD i default :: (c.values.take i ++ c.values.drop (i + 1))⟩)
    ∧ (∀ (cfg : MemoConfig α κ β) (c : CacheState κ β) (args : List α),
        c.values.length = c.keys.length → c.keys.length ≤ cfg.maxSize →
        1 ≤ cfg.maxSize →
        ((cfg.locate c.keys (cfg.transformKey args) = -1 ∨ c.keys.length = 0 →
            (memoizedStep cfg c args).cache.keys.head? = some (cfg.transformKey args))
          ∧ ∀ i : Nat, c.keys.length ≠ 0 → i < c.keys.length →
              cfg.locate c.keys (cfg.transformKey args) = (i : Int) →
              (memoizedStep cfg c args).cache.keys.head?
                = some (c.keys.getD i default))) := by
  constructor
  · intro c i m _hpos hik hiv hcap
    exact promote_hit_eq c i m hik hiv hcap
  · intro cfg c args hsync hcap hmax
    constructor
    · intro h
      have hki : ((if c.keys.length ≠ 0 then cfg.locate c.keys (cfg.transformKey args)
          else -1) : Int) = -1 := by
        by_cases h0 : c.keys.length ≠ 0
        · rw [if_pos h0]
          rcases h with h | h
          · exact h
          · exact absurd h h0
        · rw [if_neg h0]
      simp only [memoizedStep, hki]
      rw [if_neg (by omega : ¬((-1 : Int) ≠ -1))]
      simp only [promote_insert_eq c _ _ _ hsync]
      exact take_cons_head _ _ _ hmax
    · intro i h0 hilen hfound
      have hki : ((if c.keys.length ≠ 0 then cfg.locate c.keys (cfg.transformKey args)
          else -1) : Int) = (i : Int) := by
        rw [if_pos h0, hfound]
      rcases Nat.eq_zero_or_pos i with rfl | hipos
      · have hki0 : ((if c.keys.length ≠ 0 then cfg.locate c.keys (cfg.transformKey args)
            else -1) : Int) = 0 := by simpa using hki
        simp only [memoizedStep, hki0]
        rw [if_pos (by omega : ((0 : Int)) ≠ -1), if_neg (by omega : ¬((0 : Int) ≠ 0))]
        exact head?_eq_getD_zero c.keys h0
      · simp only [memoizedStep, hki]
        rw [if_pos (by omega : ((i : Int)) ≠ -1),
          if_pos (by omega : ((i : Int)) ≠ 0)]
        have htn : ((i : Int)).toNat = i := Int.toNat_natCast i
        rw [htn, promote_hit_eq c i cfg.maxSize hilen (by omega) hcap]
        simp

/-- Claim C9: hook dispatch per path — a call creating a new entry fires
the add hook then the change hook (both observing the post-insertion
cache); a call matching a non-front entry fires the hit hook (observing
the pre-promotion cache) then the change hook (observing the promoted
cache); a call matching the front entry fires the hit hook only and leaves
the cache unchanged; each hook fires only when configured. -/
theorem hook_dispatch_order [Inhabited κ] [Inhabited β] (cfg : MemoConfig α κ β)
    (c : CacheState κ β) (args : List α) :
    (((if c.keys.length ≠ 0 then cfg.locate c.keys (cfg.transformKey args) else -1)
        : Int) = -1 →
      (memoizedStep cfg c args).events
          = (if cfg.onAdd = true then [HookCall.add (memoizedStep cfg c args).cache] else [])
            ++ (if cfg.onChange = true then [HookCall.change (memoizedStep cfg c args).cache]
                else [])
        ∧ (memoizedStep cfg c args).fnCalls = 1)
    ∧ (((if c.keys.length ≠ 0 then cfg.locate c.keys (cfg.transformKey args) else -1)
          : Int) = 0 →
        (memoizedStep cfg c args).events = (if cfg.onHit = true then [HookCall.hit c] else [])
        ∧ (memoizedStep cfg c args).cache = c
        ∧ (memoizedStep cfg c args).fnCalls = 0)
    ∧ (∀ ki : Int,
        ((if c.keys.length ≠ 0 then cfg.locate c.keys (cfg.transformKey args) else -1)
          : Int) = ki → ki ≠ -1 → ki ≠ 0 →
        (memoizedStep cfg c args).events
            = (if cfg.onHit = true then [HookCall.hit c] else [])
              ++ (if cfg.onChange = true then [HookCall.change (memoizedStep cfg c args).cache]
                  else [])
          ∧ (memoizedStep cfg c args).fnCalls = 0) := by
  refine ⟨?_, ?_, ?_⟩
  · intro hki
    simp only [memoizedStep, hki]
    rw [if_neg (by omega : ¬((-1 : Int) ≠ -1))]
    exact ⟨rfl, rfl⟩
  · intro hki
    simp only [memoizedStep, hki]
    rw [if_pos (by omega : ((0 : Int)) ≠ -1), if_neg (by omega : ¬((0 : Int) ≠ 0))]
    exact ⟨rfl, rfl, rfl⟩
  · intro ki hki hne1 hne0
    simp only [memoizedStep, hki]
    rw [if_pos hne1, if_pos hne0]
    exact ⟨rfl, rfl⟩

/-- Claim C2: an uncached call followed by a call whose key matches it
(under the active matching strategy) invokes the wrapped function exactly
once overall; the second call returns the identical cached value, leaves
the cache unchanged, and fires the hit hook (when configured) but never
the add hook. -/
theorem memoized_repeat_call_single_invocation [Inhabited κ] [Inhabited β]
    (cfg : MemoConfig α κ β) (p : κ → κ → Bool) (c : CacheState κ β)
    (args1 args2 : List α)
    (hloc : cfg.locate = fun ks k => getKeyIndexGo (fun stored => p stored k) ks 0)
    (hmiss : getKeyIndexGo (fun stored => p stored (cfg.transformKey args1)) c.keys 0 = -1)
    (hmatch : p (cfg.transformKey args1) (cfg.transformKey args2) = true)
    (hsync : c.values.length = c.keys.length)
    (hmax : 1 ≤ cfg.maxSize) :
    (memoizedStep cfg c args1).fnCalls = 1
    ∧ (memoizedStep cfg (memoizedStep cfg c args1).cache args2).fnCalls = 0
    ∧ (memoizedStep cfg c args1).result = some (cfg.fn args1)
    ∧ (memoizedStep cfg (memoizedStep cfg c args1).cache args2).result
        = (memoizedStep cfg c args1).result
    ∧ (memoizedStep cfg (memoizedStep cfg c args1).cache args2).cache
        = (memoizedStep cfg c args1).cache
    ∧ (memoizedStep cfg (memoizedStep cfg c args1).cache args2).events
        = (if cfg.onHit = true then [HookCall.hit (memoizedStep cfg c args1).cache]
           else []) := by
  have hki1 : ((if c.keys.length ≠ 0 then cfg.locate c.keys (cfg.transformKey args1)
      else -1) : Int) = -1 := by
    by_cases h0 : c.keys.length ≠ 0
    · rw [if_pos h0, hloc]
      exact hmiss
    · rw [if_neg h0]
  have hfn1 : (memoizedStep cfg c args1).fnCalls = 1 := by
    simp only [memoizedStep, hki1]
    rw [if_neg (by omega : ¬((-1 : Int) ≠ -1))]
  have hcache1 : (memoizedStep cfg c args1).cache
      = ⟨(cfg.transformKey args1 :: c.keys).take cfg.maxSize,
         (cfg.fn args1 :: c.values).take cfg.maxSize⟩ := by
    simp only [memoizedStep, hki1]
    rw [if_neg (by omega : ¬((-1 : Int) ≠ -1))]
    exact promote_insert_eq c _ _ _ hsync
  have hres1 : (memoizedStep cfg c args1).result = some (cfg.fn args1) := by
    simp only [memoizedStep, hki1]
    rw [if_neg (by omega : ¬((-1 : Int) ≠ -1))]
    show (promote c (cfg.transformKey args1) (cfg.fn args1)
        c.keys.length cfg.maxSize).values.head? = _
    rw [promote_insert_eq c _ _ _ hsync]
    exact take_cons_head _ _ _ hmax
  obtain ⟨c1, hc1⟩ : ∃ x, (memoizedStep cfg c args1).cache = x := ⟨_, rfl⟩
  have hc1eq : c1 = ⟨(cfg.transformKey args1 :: c.keys).take cfg.maxSize,
      (cfg.fn args1 :: c.values).take cfg.maxSize⟩ := by rw [← hc1, hcache1]
  obtain ⟨m', hm'⟩ : ∃ m', cfg.maxSize = m' + 1 := ⟨cfg.maxSize - 1, by omega⟩
  have hkeys1 : c1.keys = cfg.transformKey args1 :: c.keys.take m' := by
    rw [hc1eq, hm']
    simp
  have hlen1 : c1.keys.length ≠ 0 := by
    rw [hkeys1]
    simp
  have hvhead1 : c1.values.head? = some (cfg.fn args1) := by
    rw [hc1eq]
    exact take_cons_head _ _ _ hmax
  have hki2 : ((if c1.keys.length ≠ 0 then cfg.locate c1.keys (cfg.transformKey args2)
      else -1) : Int) = 0 := by
    rw [if_pos hlen1, hloc, hkeys1]
    simpa using getKeyIndexGo_head
      (fun stored => p stored (cfg.transformKey args2)) _ _ 0 hmatch
  have hfn2 : (memoizedStep cfg c1 args2).fnCalls = 0 := by
    simp only [memoizedStep, hki2]
    rw [if_pos (by omega : ((0 : Int)) ≠ -1), if_neg (by omega : ¬((0 : Int) ≠ 0))]
  have hcache2 : (memoizedStep cfg c1 args2).cache = c1 := by
    simp only [memoizedStep, hki2]
    rw [if_pos (by omega : ((0 : Int)) ≠ -1), if_neg (by omega : ¬((0 : Int) ≠ 0))]
  have hres2 : (memoizedStep cfg c1 args2).result = some (cfg.fn args1) := by
    simp only [memoizedStep, hki2]
    rw [if_pos (by omega : ((0 : Int)) ≠ -1), if_neg (by omega : ¬((0 : Int) ≠ 0))]
    exact hvhead1
  have hev2 : (memoizedStep cfg c1 args2).events
      = (if cfg.onHit = true then [HookCall.hit c1] else []) := by
    simp only [memoizedStep, hki2]
    rw [if_pos (by omega : ((0 : Int)) ≠ -1), if_neg (by omega : ¬((0 : Int) ≠ 0))]
  rw [hc1]
  exact ⟨hfn1, hfn2, hres1, by rw [hres2, hres1], hcache2, hev2⟩

/-- Claim C2 witness: two calls with argument 7 on a fresh sum memoizer —
the wrapped function runs once, the second call is a pure front hit
returning the cached 7 and firing hit only. -/
theorem memoized_repeat_call_single_invocation_witness :
    (memoizedStep cfgSum ⟨[], []⟩ [7]).fnCalls = 1
    ∧ (memoizedStep cfgSum (memoizedStep cfgSum ⟨[], []⟩ [7]).cache [7]).fnCalls = 0
    ∧ (memoizedStep cfgSum ⟨[], []⟩ [7]).result = some (cfgSum.fn [7])
    ∧ (memoizedStep cfgSum (memoizedStep cfgSum ⟨[], []⟩ [7]).cache [7]).result
        = (memoizedStep cfgSum ⟨[], []⟩ [7]).result
    ∧ (memoizedStep cfgSum (memoizedStep cfgSum ⟨[], []⟩ [7]).cache [7]).cache
        = (memoizedStep cfgSum ⟨[], []⟩ [7]).cache
    ∧ (memoizedStep cfgSum (memoizedStep cfgSum ⟨[], []⟩ [7]).cache [7]).events
        = (if cfgSum.onHit = true then [HookCall.hit (memoizedStep cfgSum ⟨[], []⟩ [7]).cache]
           else []) :=
  memoized_repeat_call_single_invocation cfgSum
    (fun stored k => areKeysEqual isSameValueZero stored k) ⟨[], []⟩ [7] [7]
    rfl (by decide) (by decide) rfl (by decide)

/-- Claim C4: when a cached pending value later fails, the rejection
continuation re-locates the captured key via the key locator and, since it
is still present, splices that key/value pair out of both sequences and
re-raises the original error unchanged; a subsequent call whose derived
key is that same key then takes the miss path and invokes the wrapped
function again. -/
theorem promise_rejection_rollback [Inhabited κ] [Inhabited β] {ε : Type}
    (cfg : MemoConfig α κ β) (p : κ → κ → Bool) (c : CacheState κ β) (key : κ)
    (err : ε) (args : List α) (i : Nat)
    (hfound : getKeyIndexGo (fun stored => p stored key) c.keys 0 = (i : Int))
    (huniq : ∀ j, j < c.keys.length → j ≠ i → p (c.keys.getD j default) key = false)
    (hloc : cfg.locate = fun ks k => getKeyIndexGo (fun stored => p stored k) ks 0)
    (hkey : cfg.transformKey args = key) :
    setPromiseHandlerOnRejected
        (fun ks k => getKeyIndexGo (fun stored => p stored k) ks 0) c key err
      = (⟨spliceOne c.keys i, spliceOne c.values i⟩, err)
    ∧ (memoizedStep cfg ⟨spliceOne c.keys i, spliceOne c.values i⟩ args).fnCalls = 1 := by
  constructor
  · simp only [setPromiseHandlerOnRejected, hfound]
    rw [if_pos (by omega : ((i : Int)) ≠ -1), Int.toNat_natCast]
  · have hgone : ∀ x ∈ spliceOne c.keys i, p x key = false := by
      intro x hx
      obtain ⟨j, hjlen, hji, hjx⟩ := mem_spliceOne c.keys i x hx
      rw [← hjx]
      exact huniq j hjlen hji
    have hki : ((if (spliceOne c.keys i).length ≠ 0
        then cfg.locate (spliceOne c.keys i) (cfg.transformKey args) else -1) : Int)
          = -1 := by
      by_cases h0 : (spliceOne c.keys i).length ≠ 0
      · rw [if_pos h0, hloc, hkey]
        exact getKeyIndexGo_neg _ _ _ hgone
      · rw [if_neg h0]
    simp only [memoizedStep, hki]
    rw [if_neg (by omega : ¬((-1 : Int) ≠ -1))]

/-- Claim C4 witness: a two-entry store whose key `[2]` (cached at index 1)
is rolled back by the rejection continuation; the follow-up call with
argument 2 misses and re-invokes the wrapped function. -/
theorem promise_rejection_rollback_witness :
    setPromiseHandlerOnRejected
        (fun ks k => getKeyIndexGo
          (fun stored => areKeysEqual isSameValueZero stored k) ks 0)
        (⟨[[1], [2]], [10, 20]⟩ : CacheState (List Nat) Nat) [2] "boom"
      = (⟨spliceOne [[1], [2]] 1, spliceOne [10, 20] 1⟩, "boom")
    ∧ (memoizedStep cfgSum
        ⟨spliceOne [[1], [2]] 1, spliceOne [10, 20] 1⟩ [2]).fnCalls = 1 :=
  promise_rejection_rollback cfgSum
    (fun stored k => areKeysEqual isSameValueZero stored k)
    ⟨[[1], [2]], [10, 20]⟩ [2] "boom" [2] 1
    (by decide) (by decide) rfl rfl

/-- A configuration whose key transform returns a non-array value, used to
compare the driver's key derivation with the wrapping helper of
src/src/utils.js. -/
def cfgScalarKey : MemoConfig Nat (JSKey Nat) Nat :=
  { fn := fun args => args.foldl (fun a b => a + b) 0
    transformKey := fun _ => JSKey.scalar 5
    locate := fun ks k => getKeyIndexGo (fun stored => isSameValueZero stored k) ks 0
    maxSize := 1
    onAdd := false
    onHit := false
    onChange := false }

/-- Claim C8 counterexample: with a configured transform returning the
non-array value 5, the driver of src/src/index.ts stores and looks up the
raw scalar as the key; the single-element wrapped key sequence `[5]` that
`getTransformedKey` would produce is not what reaches the store. -/
theorem transform_output_not_wrapped_cex :
    (memoizedStep cfgScalarKey ⟨[], []⟩ [1]).cache.keys = [JSKey.scalar 5]
    ∧ getTransformedKey (fun _ => JSKey.scalar 5) [1] = [5]
    ∧ (memoizedStep cfgScalarKey ⟨[], []⟩ [1]).cache.keys ≠ [JSKey.arr [5]] := by
  decide

/-- Claim C8 amended: the driver uses the key transform's output directly
as the lookup and storage key, whether or not that output is a sequence;
the wrapping of a non-sequence output into a single-element key sequence
is performed only by the `getTransformedKey` helper of src/src/utils.js,
which the driver of src/src/index.ts does not apply. -/
theorem transform_output_used_raw [Inhabited κ] [Inhabited β] :
    (∀ (cfg : MemoConfig α κ β) (c : CacheState κ β) (args : List α),
      c.values.length = c.keys.length → 1 ≤ cfg.maxSize →
      ((if c.keys.length ≠ 0 then cfg.locate c.keys (cfg.transformKey args) else -1)
          : Int) = -1 →
      (memoizedStep cfg c args).cache.keys.head? = some (cfg.transformKey args))
    ∧ (∀ (t : List γ → JSKey γ) (args : List γ),
        (∀ k, t args = JSKey.arr k → getTransformedKey t args = k)
        ∧ (∀ v, t args = JSKey.scalar v → getTransformedKey t args = [v])) := by
  constructor
  · intro cfg c args hsync hmax hki
    simp only [memoizedStep, hki]
    rw [if_neg (by omega : ¬((-1 : Int) ≠ -1))]
    simp only [promote_insert_eq c _ _ _ hsync]
    exact take_cons_head _ _ _ hmax
  · intro t args
    constructor
    · intro k hk
      simp [getTransformedKey, hk]
    · intro v hv
      simp [getTransformedKey, hv]

end MicroMemoize
